import Mathlib

/-!
Verification of the psec parser-combinator library.

The Go source is shallowly embedded: each parser struct becomes a
constructor of an inductive `Parser`, and each `Parse` method becomes a
case of a fuel-indexed interpreter `parseP`.  Go runtime panics (nil
pointer dereferences, failed type assertions, explicit `panic` calls)
are made explicit as the `PResult.fatal` result; fuel exhaustion, an
artifact of the embedding that has no Go counterpart, is `PResult.timeout`.
-/

set_option maxRecDepth 4000

namespace Psec

/-- Parsed values: the Go code stashes arbitrary payloads in an
`interface\x7b\x7d` slot; the library itself only ever stores nil,
single bytes, strings and lists of values there. -/
inductive Value where
  | vnil : Value
  | vbyte : Char → Value
  | vstr : String → Value
  | vlist : List Value → Value

/-- Go `Loc`: filename plus 1-based line and 0-based column. -/
structure Loc where
  Filename : String
  Line : Nat
  Col : Nat

/-- Go `parseError`: an ordered list of expected fragments, a free-form
message, and a location. -/
structure parseError where
  expected : List String
  message : String
  loc : Loc

/-- Go `(*Loc).mkErrorExpectations`. -/
def mkErrorExpectations (l : Loc) (exp : List String) : parseError :=
  { expected := exp, message := "", loc := l }

/-- Go `(*Loc).mkErrorExpect` (singleton expectation). -/
def mkErrorExpect (l : Loc) (e : String) : parseError :=
  mkErrorExpectations l [e]

/-- Go `(*Loc).mkErrorMessage`. -/
def mkErrorMessage (l : Loc) (m : String) : parseError :=
  { expected := [], message := m, loc := l }

/-- Go `stringPS`: an immutable cursor into the input string.  The lazy
`tail` cache is dropped: it is a memoization of the pure `Tail` below. -/
structure stringPS where
  str : List Char
  pos : Nat
  filename : String
  line : Nat
  col : Nat
  value : Value

/-- Go `(*stringPS).Head`: `some c` is a byte, `none` is EOF. -/
def Head (s : stringPS) : Option Char :=
  s.str.get? s.pos

/-- Go `(*stringPS).Tail`.  The Go code indexes `s.str[s.pos]`
unconditionally, which panics when `pos` is at or past the end; that
panic is the `none` result here.  Note the new column is a plain copy of
the old one unless the skipped byte is a newline. -/
def Tail (s : stringPS) : Option stringPS :=
  match s.str.get? s.pos with
  | none => none
  | some c =>
      some { str := s.str, pos := s.pos + 1, filename := s.filename,
             line := if c = '\n' then s.line + 1 else s.line,
             col := if c = '\n' then 0 else s.col,
             value := Value.vnil }

/-- Go `(*stringPS).SetValue`. -/
def SetValue (s : stringPS) (v : Value) : stringPS :=
  { s with value := v }

/-- Go `(*stringPS).Loc`. -/
def locOf (s : stringPS) : Loc :=
  { Filename := s.filename, Line := s.line, Col := s.col }

/-- The stream the driver builds for `(filename, str)`. -/
def mkStream (filename str : String) : stringPS :=
  { str := str.data, pos := 0, filename := filename, line := 1, col := 0,
    value := Value.vnil }

/-- Result of a user action (Go `Action`): a value, a domain error, or a
runtime panic (failed type assertion). -/
inductive ActRes where
  | ok : Value → ActRes
  | err : String → ActRes
  | fatal : String → ActRes

/-- Go `Action` functions. -/
abbrev Action := Value → ActRes

/-- The deep embedding of the library's parser structs. -/
inductive Parser where
  | literal : String → Parser
  | literalIC : String → Parser
  | anyChar : Parser
  | oneOf : String → Parser
  | noneOf : String → Parser
  | range : Char → Char → Parser
  | alt : List Parser → Parser
  | seq : List Parser → Parser
  | seqAt : Nat → List Parser → Parser
  | optional : Parser → Parser
  | many : Parser → Nat → Bool → Parser
  | sepBy : Parser → Parser → Nat → Parser
  | endBy : Parser → Parser → Nat → Parser
  | manyTill : Parser → Parser → Parser
  | withAction : Parser → Action → Parser
  | symbol : String → Parser

/-- Go `symbolTable`. -/
abbrev symbolTable := List (String × Parser)

/-- Map lookup (first binding wins, matching the replace-on-insert
`replaceSym` below). -/
def lookupSym : symbolTable → String → Option Parser
  | [], _ => none
  | (k, v) :: rest, n => if k = n then some v else lookupSym rest n

/-- Go map assignment `g.symbols[name] = p`. -/
def replaceSym : symbolTable → String → Parser → symbolTable
  | [], n, p => [(n, p)]
  | (k, v) :: rest, n, p =>
      if k = n then (n, p) :: rest else (k, v) :: replaceSym rest n p

/-- Outcome of running a parser: a new stream, a parse error, a Go
runtime panic, or fuel exhaustion. -/
inductive PResult where
  | ok : stringPS → PResult
  | err : parseError → PResult
  | fatal : String → PResult
  | timeout : PResult

/-- Message standing for Go's nil-pointer-dereference runtime panic. -/
def nilDerefMsg : String := "runtime error: nil pointer dereference"

/-- Message standing for Go's failed-type-assertion runtime panic. -/
def typeAssertMsg : String := "runtime error: interface conversion"

/-- Go `(*pLiteral).Parse`: the byte-by-byte loop over the target. -/
def litLoop (target : String) : List Char → stringPS → PResult
  | [], ps => PResult.ok (SetValue ps (Value.vstr target))
  | c :: rest, ps =>
      match Head ps with
      | none => PResult.err (mkErrorExpect (locOf ps) ("literal '" ++ target ++ "'"))
      | some h =>
          if c = h then
            match Tail ps with
            | some t => litLoop target rest t
            | none => PResult.fatal nilDerefMsg
          else PResult.err (mkErrorExpect (locOf ps) ("literal '" ++ target ++ "'"))

/-- Upper-cased copy of a string (Go `strings.ToUpper`, ASCII case). -/
def upstring (s : String) : String :=
  String.mk (s.data.map Char.toUpper)

/-- Go `(*pLiteralIC).Parse`: loop over the upper-cased target,
comparing against the upper-cased input byte. -/
def licLoop (target : String) : List Char → stringPS → PResult
  | [], ps => PResult.ok (SetValue ps (Value.vstr target))
  | c :: rest, ps =>
      match Head ps with
      | none => PResult.err (mkErrorExpect (locOf ps) ("literal '" ++ target ++ "'"))
      | some h =>
          if c = h.toUpper then
            match Tail ps with
            | some t => licLoop target rest t
            | none => PResult.fatal nilDerefMsg
          else PResult.err (mkErrorExpect (locOf ps) ("literal '" ++ target ++ "'"))

/-- Go `(*pAnyChar).Parse`. -/
def anyCharParse (ps : stringPS) : PResult :=
  match Head ps with
  | none => PResult.err (mkErrorMessage (locOf ps) "unexpected EOF")
  | some c =>
      match Tail ps with
      | some t => PResult.ok (SetValue t (Value.vbyte c))
      | none => PResult.fatal nilDerefMsg

/-- Go `(*pOneOf).Parse`. -/
def oneOfParse (options : String) (ps : stringPS) : PResult :=
  match Head ps with
  | none => PResult.err (mkErrorMessage (locOf ps)
      ("unexpected EOF, expected one of '" ++ options ++ "'"))
  | some c =>
      if options.data.contains c then
        match Tail ps with
        | some t => PResult.ok (SetValue t (Value.vbyte c))
        | none => PResult.fatal nilDerefMsg
      else PResult.err (mkErrorMessage (locOf ps) ("expected one of: " ++ options))

/-- Go `(*pNoneOf).Parse`. -/
def noneOfParse (blacklist : String) (ps : stringPS) : PResult :=
  match Head ps with
  | none => PResult.err (mkErrorMessage (locOf ps) "unexpected EOF")
  | some c =>
      if blacklist.data.contains c then
        PResult.err (mkErrorMessage (locOf ps) ("unexpected " ++ String.singleton c))
      else
        match Tail ps with
        | some t => PResult.ok (SetValue t (Value.vbyte c))
        | none => PResult.fatal nilDerefMsg

/-- Go `(*pRange).Parse`. -/
def rangeParse (lo hi : Char) (ps : stringPS) : PResult :=
  match Head ps with
  | some c =>
      if lo ≤ c ∧ c ≤ hi then
        match Tail ps with
        | some t => PResult.ok (SetValue t (Value.vbyte c))
        | none => PResult.fatal nilDerefMsg
      else PResult.err (mkErrorExpect (locOf ps)
        ("range(" ++ String.singleton lo ++ ".." ++ String.singleton hi ++ ")"))
  | none => PResult.err (mkErrorExpect (locOf ps)
      ("range(" ++ String.singleton lo ++ ".." ++ String.singleton hi ++ ")"))

/-- Go `(*pAlt).Parse`: try children in order at the same position,
collecting errors; on total failure concatenate the expected fragments. -/
def altLoop (run : Parser → stringPS → PResult) :
    List Parser → stringPS → List parseError → PResult
  | [], ps, errs =>
      PResult.err (mkErrorExpectations (locOf ps) ((errs.map parseError.expected).flatten))
  | c :: rest, ps, errs =>
      match run c ps with
      | PResult.ok r => PResult.ok r
      | PResult.err e => altLoop run rest ps (errs ++ [e])
      | PResult.fatal m => PResult.fatal m
      | PResult.timeout => PResult.timeout

/-- Go `(*pSeq).Parse`: thread the stream through the children,
collecting each child's value. -/
def seqLoop (run : Parser → stringPS → PResult) :
    List Parser → stringPS → List Value → PResult
  | [], ps, acc => PResult.ok (SetValue ps (Value.vlist acc))
  | c :: rest, ps, acc =>
      match run c ps with
      | PResult.ok ps2 => seqLoop run rest ps2 (acc ++ [ps2.value])
      | PResult.err e => PResult.err e
      | PResult.fatal m => PResult.fatal m
      | PResult.timeout => PResult.timeout

/-- Go `(*pSeqAt).Parse`: like `seqLoop` but keeping only the value at
the requested index. -/
def seqAtLoop (run : Parser → stringPS → PResult) :
    List Parser → Nat → Nat → stringPS → Value → PResult
  | [], _, _, ps, v => PResult.ok (SetValue ps v)
  | c :: rest, i, idx, ps, v =>
      match run c ps with
      | PResult.ok ps2 => seqAtLoop run rest (i + 1) idx ps2 (if i = idx then ps2.value else v)
      | PResult.err e => PResult.err e
      | PResult.fatal m => PResult.fatal m
      | PResult.timeout => PResult.timeout

/-- Go `(*pOptional).Parse` given the inner result. -/
def optionalCombine (ps : stringPS) (res : PResult) : PResult :=
  match res with
  | PResult.ok r => PResult.ok r
  | PResult.err _ => PResult.ok (SetValue ps Value.vnil)
  | PResult.fatal m => PResult.fatal m
  | PResult.timeout => PResult.timeout

/-- Go `(*pMany).Parse`: apply the inner parser until it fails; check
the minimum against the count; on too few, fail with the last inner
failure's expected set and message `minimum <n>`. -/
def manyLoop (run : stringPS → PResult) (mn : Nat) (cap : Bool) :
    Nat → stringPS → List Value → Nat → PResult
  | 0, _, _, _ => PResult.timeout
  | fuel + 1, ps, acc, found =>
      match run ps with
      | PResult.ok ps2 => manyLoop run mn cap fuel ps2 (acc ++ [ps2.value]) (found + 1)
      | PResult.err e =>
          if found < mn then
            PResult.err { expected := e.expected,
                          message := "minimum " ++ toString mn,
                          loc := locOf ps }
          else
            PResult.ok (SetValue ps (if cap then Value.vlist acc else Value.vnil))
      | PResult.fatal m => PResult.fatal m
      | PResult.timeout => PResult.timeout

/-- Go `(*pSepBy).Parse`.  The loop re-assigns `last = ps` at the top of
each iteration, so after a successful separator followed by a failing
element the returned stream sits after that separator.  Both loop exits
leave the Go `ps` variable nil, so a violated minimum dereferences nil
(`ps.Loc()`): that is the `fatal` branch. -/
def sepByLoop (runInner runSep : stringPS → PResult) (mn : Nat) :
    Nat → stringPS → List Value → PResult
  | 0, _, _ => PResult.timeout
  | fuel + 1, ps, acc =>
      match runInner ps with
      | PResult.err _ =>
          if acc.length < mn then PResult.fatal nilDerefMsg
          else PResult.ok (SetValue ps (Value.vlist acc))
      | PResult.ok ps2 =>
          match runSep ps2 with
          | PResult.err _ =>
              if (acc ++ [ps2.value]).length < mn then PResult.fatal nilDerefMsg
              else PResult.ok (SetValue ps2 (Value.vlist (acc ++ [ps2.value])))
          | PResult.ok ps3 => sepByLoop runInner runSep mn fuel ps3 (acc ++ [ps2.value])
          | PResult.fatal m => PResult.fatal m
          | PResult.timeout => PResult.timeout
      | PResult.fatal m => PResult.fatal m
      | PResult.timeout => PResult.timeout

/-- Go `(*pEndBy).Parse`.  `last` is only assigned at the top of the
loop, so when the separator fails the stream from before that element is
returned, but the element's value has already been appended. -/
def endByLoop (runInner runSep : stringPS → PResult) (mn : Nat) :
    Nat → stringPS → List Value → PResult
  | 0, _, _ => PResult.timeout
  | fuel + 1, ps, acc =>
      match runInner ps with
      | PResult.err _ =>
          if acc.length < mn then PResult.fatal nilDerefMsg
          else PResult.ok (SetValue ps (Value.vlist acc))
      | PResult.ok ps2 =>
          match runSep ps2 with
          | PResult.err _ =>
              if (acc ++ [ps2.value]).length < mn then PResult.fatal nilDerefMsg
              else PResult.ok (SetValue ps (Value.vlist (acc ++ [ps2.value])))
          | PResult.ok ps3 => endByLoop runInner runSep mn fuel ps3 (acc ++ [ps2.value])
          | PResult.fatal m => PResult.fatal m
          | PResult.timeout => PResult.timeout
      | PResult.fatal m => PResult.fatal m
      | PResult.timeout => PResult.timeout

/-- Go `(*pManyTill).Parse`.  When the inner parser fails the Go code
evaluates `ps.Loc()` on the nil stream returned by that failure: the
`fatal` branch. -/
def manyTillLoop (runInner runTerm : stringPS → PResult) :
    Nat → stringPS → List Value → PResult
  | 0, _, _ => PResult.timeout
  | fuel + 1, ps, acc =>
      match runTerm ps with
      | PResult.ok tps => PResult.ok (SetValue tps (Value.vlist acc))
      | PResult.err _ =>
          match runInner ps with
          | PResult.ok ps2 => manyTillLoop runInner runTerm fuel ps2 (acc ++ [ps2.value])
          | PResult.err _ => PResult.fatal nilDerefMsg
          | PResult.fatal m => PResult.fatal m
          | PResult.timeout => PResult.timeout
      | PResult.fatal m => PResult.fatal m
      | PResult.timeout => PResult.timeout

/-- Go `(*pWithAction).Parse` given the inner result. -/
def actionCombine (res : PResult) (act : Action) : PResult :=
  match res with
  | PResult.ok r =>
      match act r.value with
      | ActRes.ok v => PResult.ok (SetValue r v)
      | ActRes.err m => PResult.err (mkErrorMessage (locOf r) m)
      | ActRes.fatal m => PResult.fatal m
  | PResult.err e => PResult.err e
  | PResult.fatal m => PResult.fatal m
  | PResult.timeout => PResult.timeout

/-- The interpreter: one case per `Parse` method of the source.  Fuel
bounds both recursion depth (grammar recursion through `symbol`) and the
iteration counts of the unbounded loops. -/
def parseP : Nat → Parser → stringPS → symbolTable → PResult
  | 0, _, _, _ => PResult.timeout
  | fuel + 1, p, ps, g =>
      match p with
      | Parser.literal t => litLoop t t.data ps
      | Parser.literalIC t => licLoop t (upstring t).data ps
      | Parser.anyChar => anyCharParse ps
      | Parser.oneOf opts => oneOfParse opts ps
      | Parser.noneOf bl => noneOfParse bl ps
      | Parser.range lo hi => rangeParse lo hi ps
      | Parser.alt cs => altLoop (fun c s => parseP fuel c s g) cs ps []
      | Parser.seq cs => seqLoop (fun c s => parseP fuel c s g) cs ps []
      | Parser.seqAt idx cs =>
          seqAtLoop (fun c s => parseP fuel c s g) cs 0 idx ps Value.vnil
      | Parser.optional inner => optionalCombine ps (parseP fuel inner ps g)
      | Parser.many inner mn cap =>
          manyLoop (fun s => parseP fuel inner s g) mn cap fuel ps [] 0
      | Parser.sepBy inner sep mn =>
          sepByLoop (fun s => parseP fuel inner s g) (fun s => parseP fuel sep s g)
            mn fuel ps []
      | Parser.endBy inner sep mn =>
          endByLoop (fun s => parseP fuel inner s g) (fun s => parseP fuel sep s g)
            mn fuel ps []
      | Parser.manyTill inner term =>
          manyTillLoop (fun s => parseP fuel inner s g) (fun s => parseP fuel term s g)
            fuel ps []
      | Parser.withAction inner act => actionCombine (parseP fuel inner ps g) act
      | Parser.symbol n =>
          match lookupSym g n with
          | some inner => parseP fuel inner ps g
          | none => PResult.fatal ("no symbol named '" ++ n ++ "'")

/-- Go `Stringify`: wrap with the action that concatenates a list of
bytes into a string; the type assertions panic on any other shape. -/
def collectBytes : List Value → Option (List Char)
  | [] => some []
  | Value.vbyte c :: rest => (collectBytes rest).map (fun l => c :: l)
  | _ => none

/-- The action installed by Go `Stringify`. -/
def stringifyAct : Action := fun v =>
  match v with
  | Value.vlist vs =>
      match collectBytes vs with
      | some cs => ActRes.ok (Value.vstr (String.mk cs))
      | none => ActRes.fatal typeAssertMsg
  | _ => ActRes.fatal typeAssertMsg

/-- Go `Stringify`. -/
def Stringify (p : Parser) : Parser :=
  Parser.withAction p stringifyAct

/-- Go `Grammar`. -/
structure Grammar where
  symbols : symbolTable
  startSymbol : String

/-- Go `NewGrammar`. -/
def NewGrammar : Grammar :=
  { symbols := [], startSymbol := "START" }

/-- Go `(*Grammar).AddSymbol`. -/
def AddSymbol (g : Grammar) (name : String) (p : Parser) : Grammar :=
  { g with symbols := replaceSym g.symbols name p }

/-- Go `(*Grammar).WithAction`. -/
def WithAction (g : Grammar) (name : String) (p : Parser) (act : Action) : Grammar :=
  { g with symbols := replaceSym g.symbols name (Parser.withAction p act) }

/-- Outcome of `AddAction`: either a normal return with the new grammar,
or an abort (Go panic) recording the grammar state at panic time. -/
inductive AddActionResult where
  | normal : Grammar → AddActionResult
  | aborted : Grammar → String → AddActionResult

/-- Go `(*Grammar).AddAction`.  The source wraps the parser when the
name is found but then falls through to the `panic` call in every case,
so the result is always `aborted`. -/
def AddAction (g : Grammar) (name : String) (act : Action) : AddActionResult :=
  match lookupSym g.symbols name with
  | some p =>
      AddActionResult.aborted
        { g with symbols := replaceSym g.symbols name (Parser.withAction p act) }
        ("no such symbol: '" ++ name ++ "'")
  | none => AddActionResult.aborted g ("no such symbol: '" ++ name ++ "'")

/-- Outcome of the driver. -/
inductive DriverResult where
  | ok : Value → DriverResult
  | err : parseError → DriverResult
  | fatal : String → DriverResult
  | timeout : DriverResult

/-- Go `(*Grammar).ParseStringWith`. -/
def ParseStringWith (fuel : Nat) (g : Grammar) (filename str startSym : String) :
    DriverResult :=
  match lookupSym g.symbols startSym with
  | some p =>
      match parseP fuel p (mkStream filename str) g.symbols with
      | PResult.ok ps2 =>
          match Head ps2 with
          | some _ =>
              DriverResult.err (mkErrorMessage (locOf ps2)
                "incomplete parse, expected EOF but input remains")
          | none => DriverResult.ok ps2.value
      | PResult.err e => DriverResult.err e
      | PResult.fatal m => DriverResult.fatal m
      | PResult.timeout => DriverResult.timeout
  | none => DriverResult.fatal ("start symbol '" ++ startSym ++ "' does not exist")

/-- Go `(*Grammar).ParseString`. -/
def ParseString (fuel : Nat) (g : Grammar) (filename str : String) : DriverResult :=
  ParseStringWith fuel g filename str "START"

/-- Go `(*parseError).Error`: the canonical rendered string, structured
as the source's chain of length tests. -/
def ErrorString (e : parseError) : String :=
  let hdr := e.loc.Filename ++ " line " ++ toString e.loc.Line ++ " col " ++
    toString e.loc.Col
  if e.expected.length = 1 then
    if e.message = "" then hdr ++ ": expected " ++ e.expected.headD ""
    else hdr ++ ": " ++ e.message ++ ", expected " ++ e.expected.headD ""
  else if e.expected.length > 1 then
    if e.message = "" then hdr ++ ": expected one of " ++ String.intercalate ", " e.expected
    else hdr ++ ": " ++ e.message ++ ", expected one of " ++ String.intercalate ", " e.expected
  else hdr ++ ": " ++ e.message

/-- The spec's rendering rules, written as the spec states them: one
case per shape of the expected list, message prefixed when present. -/
def specErrorString (e : parseError) : String :=
  let hdr := e.loc.Filename ++ " line " ++ toString e.loc.Line ++ " col " ++
    toString e.loc.Col
  match e.expected with
  | [] => hdr ++ ": " ++ e.message
  | [e0] =>
      if e.message = "" then hdr ++ ": expected " ++ e0
      else hdr ++ ": " ++ e.message ++ ", expected " ++ e0
  | es =>
      if e.message = "" then hdr ++ ": expected one of " ++ String.intercalate ", " es
      else hdr ++ ": " ++ e.message ++ ", expected one of " ++ String.intercalate ", " es

/-- Iterate `Tail` `k` times from a stream (the stream at byte offset
`k` of the input when started from the driver's initial stream). -/
def tailN : Nat → stringPS → Option stringPS
  | 0, s => some s
  | k + 1, s =>
      match Tail s with
      | some t => tailN k t
      | none => none

/-- The spec's `lastNewlineIndex`: index of the last newline in
`input[0:k]`, `-1` when there is none. -/
def lastNewlineIndex (l : List Char) (k : Nat) : Int :=
  (List.range k).foldl (fun acc i => if l.get? i = some '\n' then (i : Int) else acc) (-1)

/-- The spec's column formula: `k - lastNewlineIndex - 1`. -/
def specColumn (l : List Char) (k : Nat) : Int :=
  (k : Int) - lastNewlineIndex l k - 1

/-- Repeatedly apply a parser from a stream, collecting the stream after
each success, until it stops succeeding; returns those streams and the
terminating result.  This is the flat unfolding used to count the
consecutive successful applications a `many` loop makes. -/
def applyIter (run : stringPS → PResult) : Nat → stringPS → List stringPS × PResult
  | 0, _ => ([], PResult.timeout)
  | fuel + 1, ps =>
      match run ps with
      | PResult.ok ps2 =>
          let r := applyIter run fuel ps2
          (ps2 :: r.1, r.2)
      | other => ([], other)

/-! Theorems. -/

/-- Dropping at an in-range index exposes that element as the head. -/
theorem drop_cons_of_get? (l : List Char) (n : Nat) (c : Char) (h : l.get? n = some c) :
    l.drop n = c :: l.drop (n + 1) := by
  obtain ⟨hlt, hg⟩ := List.get?_eq_some.mp h
  rw [List.drop_eq_getElem_cons hlt]
  simp only [List.get_eq_getElem] at hg
  rw [hg]

/-- What `Tail` does to every field, stated on the `some` case. -/
theorem Tail_eq_some {s t : stringPS} {c : Char} (hg : s.str.get? s.pos = some c)
    (h : Tail s = some t) :
    t = { str := s.str, pos := s.pos + 1, filename := s.filename,
          line := if c = '\n' then s.line + 1 else s.line,
          col := if c = '\n' then 0 else s.col,
          value := Value.vnil } := by
  simp only [Tail, hg, Option.some.injEq] at h
  exact h.symm

/-- Field accounting for iterated `Tail`: the position advances by the
number of tails taken, the line grows by the newlines in the consumed
slice, and the column is either reset to 0 (a newline was consumed) or
copied unchanged. -/
theorem tailN_track : ∀ (k : Nat) (s s' : stringPS), tailN k s = some s' →
    s'.str = s.str ∧ s'.pos = s.pos + k ∧
    s'.line = s.line + ((s.str.drop s.pos).take k).count '\n' ∧
    s'.col = (if '\n' ∈ (s.str.drop s.pos).take k then 0 else s.col)
  | 0, s, s', h => by
      simp only [tailN, Option.some.injEq] at h
      subst h
      simp
  | k + 1, s, s', h => by
      simp only [tailN] at h
      cases hT : Tail s with
      | none => rw [hT] at h; exact Option.noConfusion h
      | some t =>
          rw [hT] at h
          cases hg : s.str.get? s.pos with
          | none =>
              simp only [Tail, hg] at hT
              exact Option.noConfusion hT
          | some c =>
              have ht := Tail_eq_some hg hT
              subst ht
              obtain ⟨h1, h2, h3, h4⟩ := tailN_track k _ s' h
              have hd : s.str.drop s.pos = c :: s.str.drop (s.pos + 1) :=
                drop_cons_of_get? _ _ _ hg
              rw [hd]
              refine ⟨by simpa using h1, by simp at h2; omega, ?_, ?_⟩
              · simp only [List.take_succ_cons, List.count_cons]
                simp only at h3
                by_cases hc : c = '\n' <;> simp [hc] at h3 ⊢ <;> omega
              · simp only [List.take_succ_cons, List.mem_cons]
                simp only at h4
                by_cases hc : c = '\n'
                · simp [hc] at h4 ⊢
                  simpa using h4
                · have hc' : ¬('\n' = c) := fun he => hc he.symm
                  simp [hc, hc'] at h4 ⊢
                  exact h4

/-- C2 amended: the line at byte offset `k` is `1 + count('\n' in
input[0:k])` as the claim states, but the column is always 0: `Tail`
never advances the column on a non-newline byte, it only resets it to 0
after a newline, and it starts at 0. -/
theorem line_col_tracking_amended (fn str : String) (k : Nat) (s' : stringPS)
    (h : tailN k (mkStream fn str) = some s') :
    s'.line = 1 + (str.data.take k).count '\n' ∧ s'.col = 0 := by
  obtain ⟨h1, h2, h3, h4⟩ := tailN_track k (mkStream fn str) s' h
  simp only [mkStream, List.drop_zero] at h3 h4
  exact ⟨h3, by rw [h4]; simp⟩

/-- Witness for the amended C2 at input `"a\nb"`, offset 3. -/
theorem line_col_tracking_amended_witness :
    ({ str := "a\nb".data, pos := 3, filename := "test", line := 2, col := 0,
       value := Value.vnil } : stringPS).line =
        1 + (("a\nb").data.take 3).count '\n'
    ∧ ({ str := "a\nb".data, pos := 3, filename := "test", line := 2, col := 0,
         value := Value.vnil } : stringPS).col = 0 :=
  line_col_tracking_amended "test" "a\nb" 3 _ rfl

/-- The accumulator form of `altLoop` when every child fails. -/
theorem altLoop_spec (run : Parser → stringPS → PResult) (ps : stringPS) :
    ∀ (cs : List Parser) (errs acc : List parseError),
      cs.map (fun c => run c ps) = errs.map PResult.err →
      altLoop run cs ps acc =
        PResult.err (mkErrorExpectations (locOf ps)
          (((acc ++ errs).map parseError.expected).flatten))
  | [], errs, acc, h => by
      cases errs with
      | nil => simp [altLoop]
      | cons e es => simp at h
  | c :: rest, errs, acc, h => by
      cases errs with
      | nil => simp at h
      | cons e es =>
          simp only [List.map_cons, List.cons.injEq] at h
          obtain ⟨h1, h2⟩ := h
          simp only [altLoop, h1]
          rw [altLoop_spec run ps rest es (acc ++ [e]) h2]
          simp

/-- C1: when every child of `Alt` fails, the result is a ParseError at
the entry stream's location whose expected list is the concatenation, in
child order, of the children's expected fragments, with an empty
message; with zero children the hypothesis forces `errs = []`, so `Alt`
fails with an empty expected set. -/
theorem alt_merges_expected_on_total_failure (fuel : Nat) (cs : List Parser)
    (errs : List parseError) (ps : stringPS) (g : symbolTable)
    (h : cs.map (fun c => parseP fuel c ps g) = errs.map PResult.err) :
    parseP (fuel + 1) (Parser.alt cs) ps g =
      PResult.err { expected := (errs.map parseError.expected).flatten,
                    message := "", loc := locOf ps } := by
  simp only [parseP]
  rw [altLoop_spec (fun c s => parseP fuel c s g) ps cs errs [] h]
  simp [mkErrorExpectations]

/-- Witness for C1: three failing literals merge their expectations. -/
theorem alt_merges_expected_on_total_failure_witness :
    parseP 2 (Parser.alt [Parser.literal "abc", Parser.literal "aaa", Parser.literal "def"])
      (mkStream "test" "ABC") [] =
    PResult.err { expected := ["literal 'abc'", "literal 'aaa'", "literal 'def'"],
                  message := "", loc := { Filename := "test", Line := 1, Col := 0 } } := by
  have h := alt_merges_expected_on_total_failure 1
    [Parser.literal "abc", Parser.literal "aaa", Parser.literal "def"]
    [mkErrorExpect { Filename := "test", Line := 1, Col := 0 } "literal 'abc'",
     mkErrorExpect { Filename := "test", Line := 1, Col := 0 } "literal 'aaa'",
     mkErrorExpect { Filename := "test", Line := 1, Col := 0 } "literal 'def'"]
    (mkStream "test" "ABC") [] rfl
  exact h

/-- `getLastD` over a cons. -/
theorem getLastD_cons_eq {α : Type} (a d : α) (l : List α) :
    (a :: l).getLastD d = l.getLastD a := by
  cases l <;> simp [List.getLastD]

/-- `manyLoop` described through the flat unfolding `applyIter`: when
the chain of inner applications ends in an inner failure, the loop
checks the total count against the minimum, failing with the last inner
failure's expected set and the `minimum` message, or succeeding at the
stream after the last success with the collected values. -/
theorem manyLoop_applyIter (run : stringPS → PResult) (mn : Nat) (cap : Bool) :
    ∀ (fuel : Nat) (ps : stringPS) (acc : List Value) (found : Nat)
      (succs : List stringPS) (e : parseError),
      applyIter run fuel ps = (succs, PResult.err e) →
      manyLoop run mn cap fuel ps acc found =
        if found + succs.length < mn then
          PResult.err { expected := e.expected,
                        message := "minimum " ++ toString mn,
                        loc := locOf (succs.getLastD ps) }
        else
          PResult.ok (SetValue (succs.getLastD ps)
            (if cap then Value.vlist (acc ++ succs.map stringPS.value) else Value.vnil))
  | 0, ps, acc, found, succs, e, h => by
      simp [applyIter] at h
  | fuel + 1, ps, acc, found, succs, e, h => by
      simp only [applyIter] at h
      cases hr : run ps with
      | ok ps2 =>
          rw [hr] at h
          dsimp only at h
          cases hit : applyIter run fuel ps2 with
          | mk l t =>
              rw [hit] at h
              simp only [Prod.mk.injEq] at h
              obtain ⟨hs, ht⟩ := h
              subst hs
              subst ht
              have ih := manyLoop_applyIter run mn cap fuel ps2 (acc ++ [ps2.value])
                (found + 1) l e hit
              simp only [manyLoop, hr]
              rw [ih, getLastD_cons_eq]
              have harith : found + (ps2 :: l).length = found + 1 + l.length := by
                simp; omega
              rw [harith]
              by_cases hlt : found + 1 + l.length < mn
              · simp [hlt]
              · simp [hlt]
      | err e' =>
          rw [hr] at h
          dsimp only at h
          simp only [Prod.mk.injEq] at h
          obtain ⟨hs, ht⟩ := h
          subst hs
          cases ht
          simp only [manyLoop, hr]
          by_cases hlt : found < mn
          · simp [hlt]
          · simp [hlt]
      | fatal m =>
          rw [hr] at h
          dsimp only at h
          simp only [Prod.mk.injEq] at h
          exact PResult.noConfusion h.2
      | timeout =>
          rw [hr] at h
          dsimp only at h
          simp only [Prod.mk.injEq] at h
          exact PResult.noConfusion h.2

/-- C6: `ManyMin(p, n)` succeeds exactly when the number of consecutive
successful applications of `p` (the length of `succs` in the flat
unfolding, which ends in an inner failure) is at least `n`; when the
count is below `n` it fails with message `"minimum <n>"` and the
expected list of the last inner failure. -/
theorem manyMin_count_threshold (fuel : Nat) (p : Parser) (g : symbolTable) (mn : Nat)
    (ps : stringPS) (succs : List stringPS) (e : parseError)
    (h : applyIter (fun s => parseP fuel p s g) fuel ps = (succs, PResult.err e)) :
    parseP (fuel + 1) (Parser.many p mn true) ps g =
      if succs.length < mn then
        PResult.err { expected := e.expected,
                      message := "minimum " ++ toString mn,
                      loc := locOf (succs.getLastD ps) }
      else
        PResult.ok (SetValue (succs.getLastD ps)
          (Value.vlist (succs.map stringPS.value))) := by
  simp only [parseP]
  rw [manyLoop_applyIter (fun s => parseP fuel p s g) mn true fuel ps [] 0 succs e h]
  simp

/-- Witness for C6: `Many1(Range('a','z'))` on empty input makes zero
successful applications, so it fails with `minimum 1` and the range's
expected fragment. -/
theorem manyMin_count_threshold_witness :
    parseP 2 (Parser.many (Parser.range 'a' 'z') 1 true) (mkStream "test" "") [] =
      PResult.err { expected := ["range(a..z)"], message := "minimum 1",
                    loc := { Filename := "test", Line := 1, Col := 0 } } := by
  have h := manyMin_count_threshold 1 (Parser.range 'a' 'z') [] 1 (mkStream "test" "")
    [] { expected := ["range(a..z)"], message := "",
         loc := { Filename := "test", Line := 1, Col := 0 } } rfl
  simpa using h

/-- C4: with a defined start symbol, the driver returns a failing start
parser's error unchanged; on success with input remaining it fails with
the incomplete-parse message at the returned stream's location; on
success at EOF it returns the stream's attached value. -/
theorem parseStringWith_driver_behaviour (fuel : Nat) (g : Grammar)
    (fn str start : String) (p : Parser)
    (hp : lookupSym g.symbols start = some p) :
    (∀ e, parseP fuel p (mkStream fn str) g.symbols = PResult.err e →
        ParseStringWith fuel g fn str start = DriverResult.err e)
  ∧ (∀ s2, parseP fuel p (mkStream fn str) g.symbols = PResult.ok s2 →
        Head s2 ≠ none →
        ParseStringWith fuel g fn str start =
          DriverResult.err { expected := [],
                             message := "incomplete parse, expected EOF but input remains",
                             loc := locOf s2 })
  ∧ (∀ s2, parseP fuel p (mkStream fn str) g.symbols = PResult.ok s2 →
        Head s2 = none →
        ParseStringWith fuel g fn str start = DriverResult.ok s2.value) := by
  refine ⟨?_, ?_, ?_⟩
  · intro e he
    simp [ParseStringWith, hp, he]
  · intro s2 hs hne
    cases hh : Head s2 with
    | none => exact absurd hh hne
    | some c => simp [ParseStringWith, hp, hs, hh, mkErrorMessage]
  · intro s2 hs hh
    simp [ParseStringWith, hp, hs, hh]

/-- Witness for C4: `Literal("a")` as start symbol on `"ab"` succeeds at
offset 1 with input remaining, so the driver reports the
incomplete-parse error. -/
theorem parseStringWith_driver_behaviour_witness :
    ParseStringWith 2
      { symbols := [("START", Parser.literal "a")], startSymbol := "START" }
      "test" "ab" "START" =
    DriverResult.err { expected := [],
                       message := "incomplete parse, expected EOF but input remains",
                       loc := { Filename := "test", Line := 1, Col := 0 } } := by
  have h := (parseStringWith_driver_behaviour 2
    { symbols := [("START", Parser.literal "a")], startSymbol := "START" }
    "test" "ab" "START" (Parser.literal "a") rfl).2.1
    { str := "ab".data, pos := 1, filename := "test", line := 1, col := 0,
      value := Value.vstr "a" }
    rfl (by decide)
  simpa using h

/-- C5: For every ParseError, its rendered string is exactly
`"<file> line L col C: <message>"` when the expected list is empty,
`"<file> line L col C: expected <e0>"` (prefixed by `"<message>, "` when
a message is present) when it has one element, and
`"<file> line L col C: expected one of <e0>, <e1>, ..."` with
comma-separated fragments (prefixed by `"<message>, "` when a message is
present) when it has two or more: the source's rendering agrees with the
spec's case analysis on every error value. -/
theorem errorString_matches_spec_rendering (e : parseError) :
    ErrorString e = specErrorString e := by
  obtain ⟨exp, msg, l⟩ := e
  match exp with
  | [] => simp [ErrorString, specErrorString]
  | [e0] =>
      by_cases h : msg = "" <;> simp [ErrorString, specErrorString, h]
  | e0 :: e1 :: rest =>
      by_cases h : msg = "" <;> simp [ErrorString, specErrorString, h]

/-- C3 (the code violates it): running
`SepBy(Literal("a"), Literal(","))` on `"a,b"` succeeds with the stream
at byte offset 2, i.e. after the trailing separator, not before it:
the loop's top-of-iteration `last = ps` overwrites the rollback point
saved before the separator attempt. -/
theorem sepBy_consumes_trailing_separator :
    parseP 4 (Parser.sepBy (Parser.literal "a") (Parser.literal ",") 0)
      (mkStream "test" "a,b") [] =
    PResult.ok { str := "a,b".data, pos := 2, filename := "test", line := 1, col := 0,
                 value := Value.vlist [Value.vstr "a"] } := rfl

/-- C7 (the code violates it): `SepBy1` and `ManyTill` evaluate
`ps.Loc()` on the nil stream produced by an inner failure, and
`Stringify`'s action type-asserts its raw value, so each aborts with a
runtime panic rather than returning an error value. -/
theorem parsers_dereference_nil_stream :
    parseP 4 (Parser.sepBy (Parser.literal "a") (Parser.literal ",") 1)
      (mkStream "test" "b") [] = PResult.fatal nilDerefMsg
  ∧ parseP 4 (Parser.manyTill (Parser.literal "a") (Parser.literal "$"))
      (mkStream "test" "b") [] = PResult.fatal nilDerefMsg
  ∧ parseP 4 (Stringify Parser.anyChar) (mkStream "test" "x") [] =
      PResult.fatal typeAssertMsg :=
  ⟨rfl, rfl, rfl⟩

/-- C8 (the code violates it): even when the named symbol exists,
`AddAction` wraps the parser and then falls through to the
unconditional `panic` call, so it never returns normally. -/
theorem addAction_aborts_even_when_symbol_defined :
    AddAction { symbols := [("S", Parser.literal "a")], startSymbol := "START" }
      "S" ActRes.ok =
    AddActionResult.aborted
      { symbols := [("S", Parser.withAction (Parser.literal "a") ActRes.ok)],
        startSymbol := "START" }
      "no such symbol: 'S'" := rfl

/-- C9 (the code violates it): `EndBy(Literal("a"), Literal(";"))` on
`"a;a"` succeeds having consumed only `"a;"` (offset 2), yet its value
list contains two elements: the final, unterminated `"a"` contributed a
value because the loop appends before attempting the separator. -/
theorem endBy_keeps_unterminated_element_value :
    parseP 6 (Parser.endBy (Parser.literal "a") (Parser.literal ";") 0)
      (mkStream "test" "a;a") [] =
    PResult.ok { str := "a;a".data, pos := 2, filename := "test", line := 1, col := 0,
                 value := Value.vlist [Value.vstr "a", Value.vstr "a"] } := rfl

/-- `Tail` advances the position by exactly one byte. -/
theorem Tail_pos {s t : stringPS} (h : Tail s = some t) : t.pos = s.pos + 1 := by
  cases hg : s.str.get? s.pos with
  | none => simp only [Tail, hg] at h; exact Option.noConfusion h
  | some c => rw [Tail_eq_some hg h]

/-- The literal loop never moves the cursor backwards. -/
theorem litLoop_mono (t : String) : ∀ (l : List Char) (ps r : stringPS),
    litLoop t l ps = PResult.ok r → ps.pos ≤ r.pos
  | [], ps, r, h => by
      simp only [litLoop, PResult.ok.injEq] at h
      subst h
      exact Nat.le_refl _
  | c :: rest, ps, r, h => by
      simp only [litLoop] at h
      cases hh : Head ps with
      | none => rw [hh] at h; exact PResult.noConfusion h
      | some hc =>
          rw [hh] at h
          dsimp only at h
          by_cases hce : c = hc
          · rw [if_pos hce] at h
            cases ht : Tail ps with
            | none => rw [ht] at h; exact PResult.noConfusion h
            | some tl =>
                rw [ht] at h
                dsimp only at h
                have h1 := litLoop_mono t rest tl r h
                have h2 := Tail_pos ht
                omega
          · rw [if_neg hce] at h; exact PResult.noConfusion h

/-- The case-insensitive literal loop never moves the cursor backwards. -/
theorem licLoop_mono (t : String) : ∀ (l : List Char) (ps r : stringPS),
    licLoop t l ps = PResult.ok r → ps.pos ≤ r.pos
  | [], ps, r, h => by
      simp only [licLoop, PResult.ok.injEq] at h
      subst h
      exact Nat.le_refl _
  | c :: rest, ps, r, h => by
      simp only [licLoop] at h
      cases hh : Head ps with
      | none => rw [hh] at h; exact PResult.noConfusion h
      | some hc =>
          rw [hh] at h
          dsimp only at h
          by_cases hce : c = hc.toUpper
          · rw [if_pos hce] at h
            cases ht : Tail ps with
            | none => rw [ht] at h; exact PResult.noConfusion h
            | some tl =>
                rw [ht] at h
                dsimp only at h
                have h1 := licLoop_mono t rest tl r h
                have h2 := Tail_pos ht
                omega
          · rw [if_neg hce] at h; exact PResult.noConfusion h

/-- `AnyChar` never moves the cursor backwards. -/
theorem anyCharParse_mono (ps r : stringPS) (h : anyCharParse ps = PResult.ok r) :
    ps.pos ≤ r.pos := by
  unfold anyCharParse at h
  cases hh : Head ps with
  | none => rw [hh] at h; exact PResult.noConfusion h
  | some c =>
      rw [hh] at h
      dsimp only at h
      cases ht : Tail ps with
      | none => rw [ht] at h; exact PResult.noConfusion h
      | some tl =>
          rw [ht] at h
          dsimp only at h
          injection h with h'
          subst h'
          have := Tail_pos ht
          simp only [SetValue]
          omega

/-- `OneOf` never moves the cursor backwards. -/
theorem oneOfParse_mono (opts : String) (ps r : stringPS)
    (h : oneOfParse opts ps = PResult.ok r) : ps.pos ≤ r.pos := by
  unfold oneOfParse at h
  cases hh : Head ps with
  | none => rw [hh] at h; exact PResult.noConfusion h
  | some c =>
      rw [hh] at h
      dsimp only at h
      by_cases hm : opts.data.contains c
      · rw [if_pos hm] at h
        cases ht : Tail ps with
        | none => rw [ht] at h; exact PResult.noConfusion h
        | some tl =>
            rw [ht] at h
            dsimp only at h
            injection h with h'
            subst h'
            have := Tail_pos ht
            simp only [SetValue]
            omega
      · rw [if_neg hm] at h; exact PResult.noConfusion h

/-- `NoneOf` never moves the cursor backwards. -/
theorem noneOfParse_mono (bl : String) (ps r : stringPS)
    (h : noneOfParse bl ps = PResult.ok r) : ps.pos ≤ r.pos := by
  unfold noneOfParse at h
  cases hh : Head ps with
  | none => rw [hh] at h; exact PResult.noConfusion h
  | some c =>
      rw [hh] at h
      dsimp only at h
      by_cases hm : bl.data.contains c
      · rw [if_pos hm] at h; exact PResult.noConfusion h
      · rw [if_neg hm] at h
        cases ht : Tail ps with
        | none => rw [ht] at h; exact PResult.noConfusion h
        | some tl =>
            rw [ht] at h
            dsimp only at h
            injection h with h'
            subst h'
            have := Tail_pos ht
            simp only [SetValue]
            omega

/-- `Range` never moves the cursor backwards. -/
theorem rangeParse_mono (lo hi : Char) (ps r : stringPS)
    (h : rangeParse lo hi ps = PResult.ok r) : ps.pos ≤ r.pos := by
  unfold rangeParse at h
  cases hh : Head ps with
  | none => rw [hh] at h; exact PResult.noConfusion h
  | some c =>
      rw [hh] at h
      dsimp only at h
      by_cases hm : lo ≤ c ∧ c ≤ hi
      · rw [if_pos hm] at h
        cases ht : Tail ps with
        | none => rw [ht] at h; exact PResult.noConfusion h
        | some tl =>
            rw [ht] at h
            dsimp only at h
            injection h with h'
            subst h'
            have := Tail_pos ht
            simp only [SetValue]
            omega
      · rw [if_neg hm] at h; exact PResult.noConfusion h

/-- `altLoop` returns one of its children's results at the entry
stream, so it inherits their monotonicity. -/
theorem altLoop_mono (run : Parser → stringPS → PResult)
    (hrun : ∀ c s r2, run c s = PResult.ok r2 → s.pos ≤ r2.pos) :
    ∀ (cs : List Parser) (ps : stringPS) (errs : List parseError) (r : stringPS),
      altLoop run cs ps errs = PResult.ok r → ps.pos ≤ r.pos
  | [], ps, errs, r, h => by
      simp only [altLoop] at h; exact PResult.noConfusion h
  | c :: rest, ps, errs, r, h => by
      simp only [altLoop] at h
      cases hr : run c ps with
      | ok r0 =>
          rw [hr] at h; dsimp only at h
          injection h with h'
          subst h'
          exact hrun c ps r0 hr
      | err e =>
          rw [hr] at h; dsimp only at h
          exact altLoop_mono run hrun rest ps (errs ++ [e]) r h
      | fatal m => rw [hr] at h; exact PResult.noConfusion h
      | timeout => rw [hr] at h; exact PResult.noConfusion h

/-- `seqLoop` threads the stream forward through its children. -/
theorem seqLoop_mono (run : Parser → stringPS → PResult)
    (hrun : ∀ c s r2, run c s = PResult.ok r2 → s.pos ≤ r2.pos) :
    ∀ (cs : List Parser) (ps : stringPS) (acc : List Value) (r : stringPS),
      seqLoop run cs ps acc = PResult.ok r → ps.pos ≤ r.pos
  | [], ps, acc, r, h => by
      simp only [seqLoop, PResult.ok.injEq] at h
      subst h
      exact Nat.le_refl _
  | c :: rest, ps, acc, r, h => by
      simp only [seqLoop] at h
      cases hr : run c ps with
      | ok ps2 =>
          rw [hr] at h; dsimp only at h
          exact Nat.le_trans (hrun c ps ps2 hr)
            (seqLoop_mono run hrun rest ps2 (acc ++ [ps2.value]) r h)
      | err e => rw [hr] at h; exact PResult.noConfusion h
      | fatal m => rw [hr] at h; exact PResult.noConfusion h
      | timeout => rw [hr] at h; exact PResult.noConfusion h

/-- `seqAtLoop` threads the stream forward through its children. -/
theorem seqAtLoop_mono (run : Parser → stringPS → PResult)
    (hrun : ∀ c s r2, run c s = PResult.ok r2 → s.pos ≤ r2.pos) :
    ∀ (cs : List Parser) (i idx : Nat) (ps : stringPS) (v : Value) (r : stringPS),
      seqAtLoop run cs i idx ps v = PResult.ok r → ps.pos ≤ r.pos
  | [], i, idx, ps, v, r, h => by
      simp only [seqAtLoop, PResult.ok.injEq] at h
      subst h
      exact Nat.le_refl _
  | c :: rest, i, idx, ps, v, r, h => by
      simp only [seqAtLoop] at h
      cases hr : run c ps with
      | ok ps2 =>
          rw [hr] at h; dsimp only at h
          exact Nat.le_trans (hrun c ps ps2 hr)
            (seqAtLoop_mono run hrun rest (i + 1) idx ps2 _ r h)
      | err e => rw [hr] at h; exact PResult.noConfusion h
      | fatal m => rw [hr] at h; exact PResult.noConfusion h
      | timeout => rw [hr] at h; exact PResult.noConfusion h

/-- `manyLoop` stops at the stream after the last success. -/
theorem manyLoop_mono (run : stringPS → PResult)
    (hrun : ∀ s r2, run s = PResult.ok r2 → s.pos ≤ r2.pos) (mn : Nat) (cap : Bool) :
    ∀ (fuel : Nat) (ps : stringPS) (acc : List Value) (found : Nat) (r : stringPS),
      manyLoop run mn cap fuel ps acc found = PResult.ok r → ps.pos ≤ r.pos
  | 0, ps, acc, found, r, h => by
      simp only [manyLoop] at h; exact PResult.noConfusion h
  | fuel + 1, ps, acc, found, r, h => by
      simp only [manyLoop] at h
      cases hr : run ps with
      | ok ps2 =>
          rw [hr] at h; dsimp only at h
          exact Nat.le_trans (hrun ps ps2 hr)
            (manyLoop_mono run hrun mn cap fuel ps2 (acc ++ [ps2.value]) (found + 1) r h)
      | err e =>
          rw [hr] at h; dsimp only at h
          by_cases hlt : found < mn
          · rw [if_pos hlt] at h; exact PResult.noConfusion h
          · rw [if_neg hlt] at h
            injection h with h'
            subst h'
            exact Nat.le_refl _
      | fatal m => rw [hr] at h; exact PResult.noConfusion h
      | timeout => rw [hr] at h; exact PResult.noConfusion h

/-- `sepByLoop` only ever returns streams reached by running the inner
or separator parser forward from the entry. -/
theorem sepByLoop_mono (runInner runSep : stringPS → PResult)
    (hrunInner : ∀ s r2, runInner s = PResult.ok r2 → s.pos ≤ r2.pos)
    (hrunSep : ∀ s r2, runSep s = PResult.ok r2 → s.pos ≤ r2.pos) (mn : Nat) :
    ∀ (fuel : Nat) (ps : stringPS) (acc : List Value) (r : stringPS),
      sepByLoop runInner runSep mn fuel ps acc = PResult.ok r → ps.pos ≤ r.pos
  | 0, ps, acc, r, h => by
      simp only [sepByLoop] at h; exact PResult.noConfusion h
  | fuel + 1, ps, acc, r, h => by
      simp only [sepByLoop] at h
      cases hri : runInner ps with
      | err e =>
          rw [hri] at h; dsimp only at h
          by_cases hm : acc.length < mn
          · rw [if_pos hm] at h; exact PResult.noConfusion h
          · rw [if_neg hm] at h
            injection h with h'
            subst h'
            exact Nat.le_refl _
      | ok ps2 =>
          rw [hri] at h; dsimp only at h
          cases hrs : runSep ps2 with
          | err e =>
              rw [hrs] at h; dsimp only at h
              by_cases hm : (acc ++ [ps2.value]).length < mn
              · rw [if_pos hm] at h; exact PResult.noConfusion h
              · rw [if_neg hm] at h
                injection h with h'
                subst h'
                exact hrunInner ps ps2 hri
          | ok ps3 =>
              rw [hrs] at h; dsimp only at h
              exact Nat.le_trans (hrunInner ps ps2 hri)
                (Nat.le_trans (hrunSep ps2 ps3 hrs)
                  (sepByLoop_mono runInner runSep hrunInner hrunSep mn fuel ps3
                    (acc ++ [ps2.value]) r h))
          | fatal m => rw [hrs] at h; exact PResult.noConfusion h
          | timeout => rw [hrs] at h; exact PResult.noConfusion h
      | fatal m => rw [hri] at h; exact PResult.noConfusion h
      | timeout => rw [hri] at h; exact PResult.noConfusion h

/-- `endByLoop` only ever returns streams reached by running the inner
or separator parser forward from the entry. -/
theorem endByLoop_mono (runInner runSep : stringPS → PResult)
    (hrunInner : ∀ s r2, runInner s = PResult.ok r2 → s.pos ≤ r2.pos)
    (hrunSep : ∀ s r2, runSep s = PResult.ok r2 → s.pos ≤ r2.pos) (mn : Nat) :
    ∀ (fuel : Nat) (ps : stringPS) (acc : List Value) (r : stringPS),
      endByLoop runInner runSep mn fuel ps acc = PResult.ok r → ps.pos ≤ r.pos
  | 0, ps, acc, r, h => by
      simp only [endByLoop] at h; exact PResult.noConfusion h
  | fuel + 1, ps, acc, r, h => by
      simp only [endByLoop] at h
      cases hri : runInner ps with
      | err e =>
          rw [hri] at h; dsimp only at h
          by_cases hm : acc.length < mn
          · rw [if_pos hm] at h; exact PResult.noConfusion h
          · rw [if_neg hm] at h
            injection h with h'
            subst h'
            exact Nat.le_refl _
      | ok ps2 =>
          rw [hri] at h; dsimp only at h
          cases hrs : runSep ps2 with
          | err e =>
              rw [hrs] at h; dsimp only at h
              by_cases hm : (acc ++ [ps2.value]).length < mn
              · rw [if_pos hm] at h; exact PResult.noConfusion h
              · rw [if_neg hm] at h
                injection h with h'
                subst h'
                exact Nat.le_refl _
          | ok ps3 =>
              rw [hrs] at h; dsimp only at h
              exact Nat.le_trans (hrunInner ps ps2 hri)
                (Nat.le_trans (hrunSep ps2 ps3 hrs)
                  (endByLoop_mono runInner runSep hrunInner hrunSep mn fuel ps3
                    (acc ++ [ps2.value]) r h))
          | fatal m => rw [hrs] at h; exact PResult.noConfusion h
          | timeout => rw [hrs] at h; exact PResult.noConfusion h
      | fatal m => rw [hri] at h; exact PResult.noConfusion h
      | timeout => rw [hri] at h; exact PResult.noConfusion h

/-- `manyTillLoop` finishes at a stream the terminator or body reached
by running forward. -/
theorem manyTillLoop_mono (runInner runTerm : stringPS → PResult)
    (hrunInner : ∀ s r2, runInner s = PResult.ok r2 → s.pos ≤ r2.pos)
    (hrunTerm : ∀ s r2, runTerm s = PResult.ok r2 → s.pos ≤ r2.pos) :
    ∀ (fuel : Nat) (ps : stringPS) (acc : List Value) (r : stringPS),
      manyTillLoop runInner runTerm fuel ps acc = PResult.ok r → ps.pos ≤ r.pos
  | 0, ps, acc, r, h => by
      simp only [manyTillLoop] at h; exact PResult.noConfusion h
  | fuel + 1, ps, acc, r, h => by
      simp only [manyTillLoop] at h
      cases hrt : runTerm ps with
      | ok tps =>
          rw [hrt] at h; dsimp only at h
          injection h with h'
          subst h'
          exact hrunTerm ps tps hrt
      | err e =>
          rw [hrt] at h; dsimp only at h
          cases hri : runInner ps with
          | ok ps2 =>
              rw [hri] at h; dsimp only at h
              exact Nat.le_trans (hrunInner ps ps2 hri)
                (manyTillLoop_mono runInner runTerm hrunInner hrunTerm fuel ps2
                  (acc ++ [ps2.value]) r h)
          | err e2 => rw [hri] at h; exact PResult.noConfusion h
          | fatal m => rw [hri] at h; exact PResult.noConfusion h
          | timeout => rw [hri] at h; exact PResult.noConfusion h
      | fatal m => rw [hrt] at h; exact PResult.noConfusion h
      | timeout => rw [hrt] at h; exact PResult.noConfusion h

/-- Every successful parse returns a stream at a position no smaller
than the entry position. -/
theorem parseP_mono : ∀ (fuel : Nat) (p : Parser) (ps : stringPS) (g : symbolTable)
    (r : stringPS), parseP fuel p ps g = PResult.ok r → ps.pos ≤ r.pos
  | 0, p, ps, g, r, h => by
      simp only [parseP] at h; exact PResult.noConfusion h
  | fuel + 1, p, ps, g, r, h => by
      cases p with
      | literal t =>
          simp only [parseP] at h
          exact litLoop_mono t _ ps r h
      | literalIC t =>
          simp only [parseP] at h
          exact licLoop_mono t _ ps r h
      | anyChar =>
          simp only [parseP] at h
          exact anyCharParse_mono ps r h
      | oneOf opts =>
          simp only [parseP] at h
          exact oneOfParse_mono opts ps r h
      | noneOf bl =>
          simp only [parseP] at h
          exact noneOfParse_mono bl ps r h
      | range lo hi =>
          simp only [parseP] at h
          exact rangeParse_mono lo hi ps r h
      | alt cs =>
          simp only [parseP] at h
          exact altLoop_mono _ (fun c s r2 hr => parseP_mono fuel c s g r2 hr) cs ps [] r h
      | seq cs =>
          simp only [parseP] at h
          exact seqLoop_mono _ (fun c s r2 hr => parseP_mono fuel c s g r2 hr) cs ps [] r h
      | seqAt idx cs =>
          simp only [parseP] at h
          exact seqAtLoop_mono _ (fun c s r2 hr => parseP_mono fuel c s g r2 hr)
            cs 0 idx ps Value.vnil r h
      | optional inner =>
          simp only [parseP] at h
          cases hres : parseP fuel inner ps g with
          | ok r0 =>
              rw [hres] at h
              simp only [optionalCombine] at h
              injection h with h'
              subst h'
              exact parseP_mono fuel inner ps g r0 hres
          | err e =>
              rw [hres] at h
              simp only [optionalCombine] at h
              injection h with h'
              subst h'
              exact Nat.le_refl _
          | fatal m =>
              rw [hres] at h
              simp only [optionalCombine] at h
              exact PResult.noConfusion h
          | timeout =>
              rw [hres] at h
              simp only [optionalCombine] at h
              exact PResult.noConfusion h
      | many inner mn cap =>
          simp only [parseP] at h
          exact manyLoop_mono _ (fun s r2 hr => parseP_mono fuel inner s g r2 hr)
            mn cap fuel ps [] 0 r h
      | sepBy inner sep mn =>
          simp only [parseP] at h
          exact sepByLoop_mono _ _ (fun s r2 hr => parseP_mono fuel inner s g r2 hr)
            (fun s r2 hr => parseP_mono fuel sep s g r2 hr) mn fuel ps [] r h
      | endBy inner sep mn =>
          simp only [parseP] at h
          exact endByLoop_mono _ _ (fun s r2 hr => parseP_mono fuel inner s g r2 hr)
            (fun s r2 hr => parseP_mono fuel sep s g r2 hr) mn fuel ps [] r h
      | manyTill inner term =>
          simp only [parseP] at h
          exact manyTillLoop_mono _ _ (fun s r2 hr => parseP_mono fuel inner s g r2 hr)
            (fun s r2 hr => parseP_mono fuel term s g r2 hr) fuel ps [] r h
      | withAction inner act =>
          simp only [parseP] at h
          cases hres : parseP fuel inner ps g with
          | ok r0 =>
              rw [hres] at h
              simp only [actionCombine] at h
              cases ha : act r0.value with
              | ok v =>
                  rw [ha] at h; dsimp only at h
                  injection h with h'
                  subst h'
                  exact parseP_mono fuel inner ps g r0 hres
              | err m => rw [ha] at h; exact PResult.noConfusion h
              | fatal m => rw [ha] at h; exact PResult.noConfusion h
          | err e =>
              rw [hres] at h
              simp only [actionCombine] at h
              exact PResult.noConfusion h
          | fatal m =>
              rw [hres] at h
              simp only [actionCombine] at h
              exact PResult.noConfusion h
          | timeout =>
              rw [hres] at h
              simp only [actionCombine] at h
              exact PResult.noConfusion h
      | symbol n =>
          simp only [parseP] at h
          cases hl : lookupSym g n with
          | some inner =>
              rw [hl] at h; dsimp only at h
              exact parseP_mono fuel inner ps g r h
          | none => rw [hl] at h; exact PResult.noConfusion h

/-- C10: for every parser, stream, and symbol table, a successful parse
returns a stream whose position is greater than or equal to the entry
stream's position: no parser ever moves the cursor backwards. -/
theorem parse_never_moves_backwards (fuel : Nat) (p : Parser) (ps : stringPS)
    (g : symbolTable) (r : stringPS) (h : parseP fuel p ps g = PResult.ok r) :
    ps.pos ≤ r.pos :=
  parseP_mono fuel p ps g r h

/-- Witness for C10 at `Literal("a")` on `"ab"`. -/
theorem parse_never_moves_backwards_witness :
    (mkStream "test" "ab").pos ≤
      ({ str := "ab".data, pos := 1, filename := "test", line := 1, col := 0,
         value := Value.vstr "a" } : stringPS).pos :=
  parse_never_moves_backwards 1 (Parser.literal "a") (mkStream "test" "ab") []
    { str := "ab".data, pos := 1, filename := "test", line := 1, col := 0,
      value := Value.vstr "a" } rfl

/-- C2 counterexample: on input `"ab"` at offset `k = 2` the stream
reached by two tails reports column 0, while the claim's formula
`k - lastNewlineIndex - 1` demands column 2: `Tail` copies the column
unchanged over non-newline bytes instead of advancing it. -/
theorem column_formula_counterexample :
    (tailN 2 (mkStream "test" "ab")).map (fun s => ((s.line : Int), (s.col : Int))) =
      some (1, 0)
  ∧ specColumn ("ab".data) 2 = 2
  ∧ (0 : Int) ≠ 2 :=
  ⟨rfl, by decide, by decide⟩

end Psec
